/-
Verification of the `multi_key_map` crate: a map in which several keys
("aliases") may resolve to one shared value, reference-counted per group.

The Rust `HashMap`s (`keys : HashMap<K, Index>` and
`data : HashMap<Index, (usize, V)>`) are modelled as association lists with
unique keys; `HashMap` iteration order is unspecified, so the list order is
one admissible order.  The `u128` slot index is modelled as `Nat` (the crate
itself documents the index space as inexhaustible, and `usize` counts never
overflow on reachable states).  Calls that can panic (`.unwrap()` on a
missing group entry) are modelled as returning `Option`, with `none` for the
panic.
-/
import Mathlib

set_option autoImplicit false

universe u v

namespace MultiKey

variable {A : Type u} {B : Type v}

/-- Lookup in an association list: the value of the first entry whose key
equals `a` (models `HashMap::get`). -/
def alGet [DecidableEq A] : List (A × B) → A → Option B
  | [], _ => none
  | p :: l, a => if p.1 = a then some p.2 else alGet l a

/-- Remove every entry whose key equals `a`; on duplicate-free lists this is
exactly `HashMap::remove`. -/
def alErase [DecidableEq A] : List (A × B) → A → List (A × B)
  | [], _ => []
  | p :: l, a => if p.1 = a then alErase l a else p :: alErase l a

/-- Store `b` under `a`, replacing any previous binding
(models `HashMap::insert`, up to the unspecified iteration order). -/
def alInsert [DecidableEq A] (l : List (A × B)) (a : A) (b : B) : List (A × B) :=
  (a, b) :: alErase l a

/-- The keys of the association list are pairwise distinct. -/
def NodupFst (l : List (A × B)) : Prop :=
  l.Pairwise (fun p q => p.1 ≠ q.1)

/-- Number of alias-table entries whose target index is `idx`. -/
def countAliases {K : Type u} [DecidableEq K] : List (K × Nat) → Nat → Nat
  | [], _ => 0
  | p :: l, idx => (if p.2 = idx then 1 else 0) + countAliases l idx

section Lemmas

variable [DecidableEq A]

theorem alGet_alErase_self (l : List (A × B)) (a : A) :
    alGet (alErase l a) a = none := by
  induction l with
  | nil => rfl
  | cons p l ih =>
    by_cases h : p.1 = a
    · simpa [alErase, h] using ih
    · simpa [alErase, alGet, h] using ih

theorem alGet_alErase_ne (l : List (A × B)) (a x : A) (h : a ≠ x) :
    alGet (alErase l a) x = alGet l x := by
  induction l with
  | nil => rfl
  | cons p l ih =>
    by_cases hp : p.1 = a
    · have hpx : p.1 ≠ x := by rw [hp]; exact h
      simp [alErase, alGet, hp, hpx, h, ih]
    · by_cases hx : p.1 = x
      · simp [alErase, alGet, hp, hx, Ne.symm h]
      · simp [alErase, alGet, hp, hx, ih]

theorem alGet_alInsert_self (l : List (A × B)) (a : A) (b : B) :
    alGet (alInsert l a b) a = some b := by
  simp [alInsert, alGet]

theorem alGet_alInsert_ne (l : List (A × B)) (a : A) (b : B) (x : A) (h : a ≠ x) :
    alGet (alInsert l a b) x = alGet l x := by
  simp [alInsert, alGet, h, alGet_alErase_ne l a x h]

theorem mem_alErase (l : List (A × B)) (a : A) (q : A × B) :
    q ∈ alErase l a ↔ q ∈ l ∧ q.1 ≠ a := by
  induction l with
  | nil => simp [alErase]
  | cons p l ih =>
    by_cases hp : p.1 = a
    · constructor
      · intro hq
        have := ih.mp (by simpa [alErase, hp] using hq)
        exact ⟨List.mem_cons_of_mem p this.1, this.2⟩
      · intro ⟨hq, hne⟩
        rcases List.mem_cons.mp hq with rfl | hq
        · exact absurd hp hne
        · simpa [alErase, hp] using ih.mpr ⟨hq, hne⟩
    · constructor
      · intro hq
        rcases List.mem_cons.mp (by simpa [alErase, hp] using hq) with rfl | hq
        · exact ⟨List.mem_cons_self q l, hp⟩
        · have := ih.mp hq
          exact ⟨List.mem_cons_of_mem p this.1, this.2⟩
      · intro ⟨hq, hne⟩
        rcases List.mem_cons.mp hq with rfl | hq
        · simp [alErase, hp]
        · simp [alErase, hp, ih.mpr ⟨hq, hne⟩]

theorem mem_alInsert (l : List (A × B)) (a : A) (b : B) (q : A × B) :
    q ∈ alInsert l a b ↔ q = (a, b) ∨ (q ∈ l ∧ q.1 ≠ a) := by
  simp [alInsert, mem_alErase]

theorem alErase_sublist (l : List (A × B)) (a : A) : (alErase l a).Sublist l := by
  induction l with
  | nil => simp [alErase]
  | cons p l ih =>
    by_cases hp : p.1 = a
    · simpa [alErase, hp] using ih.cons p
    · simpa [alErase, hp] using ih.cons₂ p

theorem nodupFst_alErase (l : List (A × B)) (a : A) (h : NodupFst l) :
    NodupFst (alErase l a) :=
  h.sublist (alErase_sublist l a)

theorem nodupFst_alInsert (l : List (A × B)) (a : A) (b : B) (h : NodupFst l) :
    NodupFst (alInsert l a b) := by
  refine List.Pairwise.cons ?_ (nodupFst_alErase l a h)
  intro q hq
  have := (mem_alErase l a q).mp hq
  exact fun hc => this.2 hc.symm

theorem alGet_eq_none (l : List (A × B)) (a : A) :
    alGet l a = none ↔ ∀ q ∈ l, q.1 ≠ a := by
  induction l with
  | nil => simp [alGet]
  | cons p l ih =>
    by_cases hp : p.1 = a
    · simp [alGet, hp]
    · simp [alGet, hp, ih]

theorem alGet_mem (l : List (A × B)) (a : A) (b : B) (h : alGet l a = some b) :
    (a, b) ∈ l := by
  induction l with
  | nil => simp [alGet] at h
  | cons p l ih =>
    by_cases hp : p.1 = a
    · simp only [alGet, hp, if_pos] at h
      have : p = (a, b) := by
        cases p
        simp_all
      simp [this]
    · simp only [alGet, hp, if_neg, ite_false] at h
      exact List.mem_cons_of_mem p (ih h)

theorem alErase_of_absent (l : List (A × B)) (a : A) (h : alGet l a = none) :
    alErase l a = l := by
  induction l with
  | nil => rfl
  | cons p l ih =>
    by_cases hp : p.1 = a
    · simp [alGet, hp] at h
    · simp only [alGet, hp, if_neg, ite_false] at h
      simp [alErase, hp, ih h]

end Lemmas

section CountLemmas

variable {K : Type u} [DecidableEq K]

theorem countAliases_eq_zero (l : List (K × Nat)) (j : Nat) :
    countAliases l j = 0 ↔ ∀ q ∈ l, q.2 ≠ j := by
  induction l with
  | nil => simp [countAliases]
  | cons p l ih =>
    by_cases hp : p.2 = j
    · simp [countAliases, hp]
    · simp [countAliases, hp, ih]

theorem countAliases_alErase (l : List (K × Nat)) (k : K) (t j : Nat)
    (hnd : NodupFst l) (h : alGet l k = some t) :
    countAliases l j = countAliases (alErase l k) j + (if t = j then 1 else 0) := by
  induction l with
  | nil => simp [alGet] at h
  | cons p l ih =>
    rcases List.pairwise_cons.mp hnd with ⟨hhead, htail⟩
    by_cases hp : p.1 = k
    · simp only [alGet, hp, if_pos] at h
      have ht : p.2 = t := Option.some.inj h
      have habs : alGet l k = none := by
        rw [alGet_eq_none]
        intro q hq
        have := hhead q hq
        rw [hp] at this
        exact fun hc => this hc.symm
      rw [show alErase (p :: l) k = alErase l k by simp [alErase, hp],
          alErase_of_absent l k habs]
      simp only [countAliases, ht]
      omega
    · simp only [alGet, hp, if_neg, ite_false] at h
      have := ih htail h
      simp only [countAliases, show alErase (p :: l) k = p :: alErase l k by
        simp [alErase, hp]]
      omega

theorem countAliases_alInsert (l : List (K × Nat)) (k : K) (t j : Nat) :
    countAliases (alInsert l k t) j
      = (if t = j then 1 else 0) + countAliases (alErase l k) j := rfl

theorem countAliases_alInsert_absent (l : List (K × Nat)) (k : K) (t j : Nat)
    (h : alGet l k = none) :
    countAliases (alInsert l k t) j
      = (if t = j then 1 else 0) + countAliases l j := by
  rw [countAliases_alInsert, alErase_of_absent l k h]

theorem countAliases_alErase_absent (l : List (K × Nat)) (k : K) (j : Nat)
    (h : alGet l k = none) :
    countAliases (alErase l k) j = countAliases l j := by
  rw [alErase_of_absent l k h]

end CountLemmas

end MultiKey

open MultiKey

/-- Shallow embedding of `MultiKeyMap<K, V>`: the alias table `keys`, the
group table `data` mapping a slot index to `(reference count, value)`, and
the monotone fresh-index counter `max_index`. -/
structure MultiKeyMap (K : Type u) (V : Type v) where
  keys : List (K × Nat)
  data : List (Nat × (Nat × V))
  max_index : Nat
  deriving DecidableEq

namespace MultiKeyMap

variable {K : Type u} {V : Type v} [DecidableEq K]

/-- `MultiKeyMap::new` / `Default::default`. -/
def new : MultiKeyMap K V := ⟨[], [], 0⟩

/-- `MultiKeyMap::next_index`: returns the current counter and bumps it. -/
def next_index (m : MultiKeyMap K V) : Nat × MultiKeyMap K V :=
  (m.max_index, { m with max_index := m.max_index + 1 })

/-- `MultiKeyMap::contains_key`. -/
def contains_key (m : MultiKeyMap K V) (k : K) : Bool :=
  (alGet m.keys k).isSome

/-- `MultiKeyMap::get`: resolve the key through the alias table, then the
group table. -/
def get (m : MultiKeyMap K V) (k : K) : Option V :=
  ((alGet m.keys k).bind (alGet m.data)).map (fun q => q.2)

/-- `MultiKeyMap::insert`.  `none` models the `unwrap` panic when the key's
slot is missing from the group table; otherwise `some (new state, returned
Option<V>)`. -/
def insert (m : MultiKeyMap K V) (k : K) (v : V) :
    Option (MultiKeyMap K V × Option V) :=
  match alGet m.keys k with
  | some idx =>
    match alGet m.data idx with
    | none => none
    | some (c, w) =>
      if c ≤ 1 then
        some ({ m with data := alInsert m.data idx (1, v) }, some w)
      else
        some ({ keys := alInsert m.keys k m.max_index,
                data := alInsert (alInsert m.data idx (c - 1, w)) m.max_index (1, v),
                max_index := m.max_index + 1 }, none)
  | none =>
      some ({ keys := alInsert m.keys k m.max_index,
              data := alInsert m.data m.max_index (1, v),
              max_index := m.max_index + 1 }, none)

/-- `MultiKeyMap::alias`.  `Except.ok` carries the value the mutable
reference points at; `Except.error` returns the rejected key. -/
def alias' (m : MultiKeyMap K V) (k : K) (a : K) :
    Option (MultiKeyMap K V × Except K V) :=
  match alGet m.keys k with
  | some idx =>
    match alGet m.data idx with
    | none => none
    | some (c, v) =>
      some ({ m with data := alInsert m.data idx (c + 1, v),
                     keys := alInsert m.keys a idx }, Except.ok v)
  | none => some (m, Except.error a)

/-- `MultiKeyMap::alias_many`: the loop increments the count once per key in
the list and points each at the base key's slot. -/
def alias_many (m : MultiKeyMap K V) (k : K) (aliases : List K) :
    Option (MultiKeyMap K V × Except (List K) V) :=
  match alGet m.keys k with
  | some idx =>
    match alGet m.data idx with
    | none => none
    | some (c, v) =>
      some ({ m with data := alInsert m.data idx (c + aliases.length, v),
                     keys := aliases.foldl (fun ks a => alInsert ks a idx) m.keys },
            Except.ok v)
  | none => some (m, Except.error aliases)

/-- `MultiKeyMap::values` (the group table's values). -/
def values (m : MultiKeyMap K V) : List V :=
  m.data.map (fun q => q.2.2)

/-- `MultiKeyMap::into_values` (same contents as `values`, consuming). -/
def into_values (m : MultiKeyMap K V) : List V :=
  m.data.map (fun q => q.2.2)

/-- The loop body of `MultiKeyMap::insert_many`, processing the key list in
order; the state is (map, bumped values so far, `new_count` so far). -/
def insert_many_go (new_idx : Nat) :
    List K → MultiKeyMap K V → List V → Nat →
    Option (MultiKeyMap K V × List V × Nat)
  | [], m, bumped, n => some (m, bumped, n)
  | k :: ks, m, bumped, n =>
    match alGet m.keys k with
    | some idx =>
      match alGet m.data idx with
      | none => none
      | some (c, w) =>
        if c ≤ 1 then
          insert_many_go new_idx ks { m with data := alErase m.data idx }
            (bumped ++ [w]) n
        else
          insert_many_go new_idx ks
            { m with data := alInsert m.data idx (c - 1, w),
                     keys := alInsert m.keys k new_idx }
            bumped (n + 1)
    | none =>
        insert_many_go new_idx ks { m with keys := alInsert m.keys k new_idx }
          bumped (n + 1)

/-- `MultiKeyMap::insert_many`: allocate one fresh slot up front, process the
keys, then store `(new_count, v)` at the fresh slot. -/
def insert_many (m : MultiKeyMap K V) (ks : List K) (v : V) :
    Option (MultiKeyMap K V × List V) :=
  match insert_many_go m.max_index ks { m with max_index := m.max_index + 1 } [] 0 with
  | none => none
  | some (m1, bumped, n) =>
      some ({ m1 with data := alInsert m1.data m.max_index (n, v) }, bumped)

/-- `MultiKeyMap::remove`. -/
def remove (m : MultiKeyMap K V) (k : K) :
    Option (MultiKeyMap K V × Option V) :=
  match alGet m.keys k with
  | some idx =>
    match alGet m.data idx with
    | none => none
    | some (c, w) =>
      if c = 1 then
        some ({ m with data := alErase m.data idx, keys := alErase m.keys k }, some w)
      else
        some ({ m with data := alInsert m.data idx (c - 1, w),
                       keys := alErase m.keys k }, none)
  | none => some (m, none)

/-- `MultiKeyMap::remove_many`: apply `remove` per key, collecting the
non-empty results in order. -/
def remove_many (m : MultiKeyMap K V) :
    List K → Option (MultiKeyMap K V × List V)
  | [] => some (m, [])
  | k :: ks =>
    match m.remove k with
    | none => none
    | some (m1, r) =>
      match remove_many m1 ks with
      | none => none
      | some (m2, vs) => some (m2, r.toList ++ vs)

/-- The tag of the entry handle (`Entry::Occupied` carries the resolved slot
index, `Entry::Vacant` only the pending key). -/
inductive Entry (K : Type u) where
  | occupied (key : K) (idx : Nat)
  | vacant (key : K)
  deriving DecidableEq

/-- `MultiKeyMap::entry`. -/
def entry (m : MultiKeyMap K V) (k : K) : Entry K :=
  match alGet m.keys k with
  | some idx => Entry.occupied k idx
  | none => Entry.vacant k

/-- `VacantEntry::insert`: allocate a fresh slot via `next_index`, alias the
pending key to it, store `(1, v)`. -/
def vacant_insert (m : MultiKeyMap K V) (k : K) (v : V) : MultiKeyMap K V :=
  let p := next_index m
  { p.2 with keys := alInsert p.2.keys k p.1, data := alInsert p.2.data p.1 (1, v) }

/-- `OccupiedEntry::remove_entry` for a handle holding `key` and `idx`:
delete the group entry at `idx` outright, then remove this one alias; `none`
models the `unwrap` panic when the key is missing from the alias table. -/
def remove_entry (m : MultiKeyMap K V) (key : K) (idx : Nat) :
    Option ((K × Option V) × MultiKeyMap K V) :=
  let value := (alGet m.data idx).map (fun q => q.2)
  let m1 := { m with data := alErase m.data idx }
  match alGet m1.keys key with
  | none => none
  | some _ => some ((key, value), { m1 with keys := alErase m1.keys key })

/-- `OccupiedEntry::remove`: delegates to the container's `remove`. -/
def occupied_remove (m : MultiKeyMap K V) (key : K) :
    Option (MultiKeyMap K V × Option V) :=
  m.remove key

/-- `Iter::next`, unrolled into the full yielded sequence: one pair per
alias-table entry, resolved through the group table; a failed slot lookup
makes `next` return `None`, which ends the iteration. -/
def iterGo (data : List (Nat × (Nat × V))) : List (K × Nat) → List (K × V)
  | [] => []
  | (k, idx) :: rest =>
    match alGet data idx with
    | none => []
    | some q => (k, q.2) :: iterGo data rest

/-- `MultiKeyMap::iter`: the sequence of pairs the pair iterator yields. -/
def iter (m : MultiKeyMap K V) : List (K × V) :=
  iterGo m.data m.keys

/-- Both tables are duplicate-free and every stored index is below the
fresh-index counter. -/
def Wf (m : MultiKeyMap K V) : Prop :=
  NodupFst m.keys ∧ NodupFst m.data ∧
  (∀ p ∈ m.keys, p.2 < m.max_index) ∧ (∀ q ∈ m.data, q.1 < m.max_index)

/-- The specified group-table invariant: each group's reference count equals
the number of aliases targeting its slot, and a group exists only if at
least one alias targets it. -/
def Inv (m : MultiKeyMap K V) : Prop :=
  ∀ q ∈ m.data, q.2.1 = countAliases m.keys q.1 ∧ 1 ≤ countAliases m.keys q.1

/-- `k` is present and the sole owner of its group (count ≤ 1). -/
def sole_owner (m : MultiKeyMap K V) (k : K) : Prop :=
  ∃ idx c w, alGet m.keys k = some idx ∧ alGet m.data idx = some (c, w) ∧ c ≤ 1

/-- Every stored index is below the fresh-index counter. -/
def IdxBound (m : MultiKeyMap K V) : Prop :=
  (∀ p ∈ m.keys, p.2 < m.max_index) ∧ (∀ q ∈ m.data, q.1 < m.max_index)

/-- One mutating step never lowers the counter, keeps indices bounded, and
any slot present afterwards is either an old slot or a fresh one (at least
the old counter value). -/
def FreshStep (m m2 : MultiKeyMap K V) : Prop :=
  m.max_index ≤ m2.max_index ∧ IdxBound m2 ∧
  ∀ q ∈ m2.data, (alGet m.data q.1).isSome = true ∨ m.max_index ≤ q.1

instance decNodupFst {A : Type u} {B : Type v} [DecidableEq A]
    (l : List (A × B)) : Decidable (NodupFst l) :=
  List.instDecidablePairwise l

instance decWf (m : MultiKeyMap K V) : Decidable (Wf m) := by
  unfold Wf
  infer_instance

instance decInv (m : MultiKeyMap K V) : Decidable (Inv m) := by
  unfold Inv
  infer_instance

instance decIdxBound (m : MultiKeyMap K V) : Decidable (IdxBound m) := by
  unfold IdxBound
  infer_instance

instance decFreshStep (m m2 : MultiKeyMap K V) : Decidable (FreshStep m m2) := by
  unfold FreshStep
  infer_instance

end MultiKeyMap

namespace MultiKeyMap

variable {K : Type u} {V : Type v} [DecidableEq K]

/-- C9: immediately after a successful `insert(k, v)`, `get(k)` returns `v`,
in all three branches (fresh key, sole-owner overwrite, shared-key detach). -/
theorem insert_get (m m' : MultiKeyMap K V) (k : K) (v : V) (r : Option V)
    (h : insert m k v = some (m', r)) : get m' k = some v := by
  cases hk : alGet m.keys k with
  | none =>
    simp only [insert, hk, Option.some.injEq, Prod.mk.injEq] at h
    obtain ⟨hm, hr⟩ := h
    subst hm
    simp [get, alGet_alInsert_self]
  | some idx =>
    cases hd : alGet m.data idx with
    | none => simp [insert, hk, hd] at h
    | some p =>
      obtain ⟨c, w⟩ := p
      by_cases hc : c ≤ 1
      · simp only [insert, hk, hd, if_pos hc, Option.some.injEq, Prod.mk.injEq] at h
        obtain ⟨hm, hr⟩ := h
        subst hm
        simp [get, hk, alGet_alInsert_self]
      · simp only [insert, hk, hd, if_neg hc, Option.some.injEq, Prod.mk.injEq] at h
        obtain ⟨hm, hr⟩ := h
        subst hm
        simp [get, alGet_alInsert_self]

/-- Witness for C9 at a concrete input: inserting key 0 with value 5 into the
empty map makes `get 0` return 5. -/
theorem insert_get_witness :
    get (⟨[(0, 0)], [(0, (1, 5))], 1⟩ : MultiKeyMap Nat Nat) 0 = some 5 :=
  insert_get ⟨[], [], 0⟩ ⟨[(0, 0)], [(0, (1, 5))], 1⟩ 0 5 none rfl

/-- C7: `alias` on an absent base key returns the new key unconsumed and the
container unchanged; `alias_many` likewise returns the whole key list. -/
theorem alias_absent (m : MultiKeyMap K V) (k a : K) (ks : List K)
    (h : alGet m.keys k = none) :
    alias' m k a = some (m, Except.error a) ∧
    alias_many m k ks = some (m, Except.error ks) := by
  constructor
  · simp [alias', h]
  · simp [alias_many, h]

/-- Witness for C7: aliasing onto the missing key 0 of the empty map hands
back key 1 (and the list [2, 3]) with the map unchanged. -/
theorem alias_absent_witness :
    alias' (⟨[], [], 0⟩ : MultiKeyMap Nat Nat) 0 1
        = some (⟨[], [], 0⟩, Except.error 1) ∧
    alias_many (⟨[], [], 0⟩ : MultiKeyMap Nat Nat) 0 [2, 3]
        = some (⟨[], [], 0⟩, Except.error [2, 3]) :=
  alias_absent ⟨[], [], 0⟩ 0 1 [2, 3] rfl

/-- C6: `remove` returns empty on an absent key; deletes group and alias and
returns the value when the count is 1; decrements the count, deletes only
this alias and returns empty when the count exceeds 1, leaving the value
retrievable under every other key. -/
theorem remove_spec (m : MultiKeyMap K V) (k : K) :
    (alGet m.keys k = none → remove m k = some (m, none)) ∧
    (∀ idx w, alGet m.keys k = some idx → alGet m.data idx = some (1, w) →
      ∃ m', remove m k = some (m', some w) ∧
        alGet m'.keys k = none ∧ alGet m'.data idx = none) ∧
    (∀ idx c w, alGet m.keys k = some idx → alGet m.data idx = some (c, w) →
        1 < c →
      ∃ m', remove m k = some (m', none) ∧
        alGet m'.keys k = none ∧ alGet m'.data idx = some (c - 1, w) ∧
        ∀ k2, k2 ≠ k → get m' k2 = get m k2) := by
  refine ⟨fun h => by simp [remove, h], ?_, ?_⟩
  · intro idx w hk hd
    refine ⟨⟨alErase m.keys k, alErase m.data idx, m.max_index⟩,
      by simp [remove, hk, hd], ?_, ?_⟩
    · exact alGet_alErase_self m.keys k
    · exact alGet_alErase_self m.data idx
  · intro idx c w hk hd hc
    have hc1 : ¬ c = 1 := by omega
    refine ⟨⟨alErase m.keys k, alInsert m.data idx (c - 1, w), m.max_index⟩,
      by simp [remove, hk, hd, hc1], ?_, ?_, ?_⟩
    · exact alGet_alErase_self m.keys k
    · exact alGet_alInsert_self m.data idx (c - 1, w)
    · intro k2 hk2
      show ((alGet (alErase m.keys k) k2).bind _).map _ = _
      rw [alGet_alErase_ne m.keys k k2 (Ne.symm hk2)]
      cases hj : alGet m.keys k2 with
      | none => simp [get, hj]
      | some j =>
        by_cases hji : j = idx
        · subst hji
          simp [get, hj, hd, alGet_alInsert_self]
        · simp [get, hj,
            alGet_alInsert_ne m.data idx (c - 1, w) j (fun hc => hji hc.symm)]

/-- Witness for C6 at a concrete input: removing key 0 from a map where keys
0 and 1 share a group of count 2 decrements the count and keeps the value
reachable from key 1. -/
theorem remove_spec_witness :
    ∃ m', remove (⟨[(1, 0), (0, 0)], [(0, (2, 7))], 1⟩ : MultiKeyMap Nat Nat) 0
        = some (m', none) ∧
      alGet m'.keys 0 = none ∧ alGet m'.data 0 = some (1, 7) ∧
      ∀ k2, k2 ≠ 0 →
        get m' k2
          = get (⟨[(1, 0), (0, 0)], [(0, (2, 7))], 1⟩ : MultiKeyMap Nat Nat) k2 :=
  (remove_spec ⟨[(1, 0), (0, 0)], [(0, (2, 7))], 1⟩ 0).2.2 0 2 7 rfl rfl
    (by decide)

/-- C4: `remove_entry` on an occupied handle deletes the group entry at the
handle's slot outright, regardless of its reference count, removes only this
one alias, and returns the owned key together with the group's value if one
existed. -/
theorem remove_entry_spec (m : MultiKeyMap K V) (k : K) (idx : Nat)
    (he : entry m k = Entry.occupied k idx) :
    ∃ m', remove_entry m k idx
        = some ((k, (alGet m.data idx).map (fun q => q.2)), m') ∧
      alGet m'.data idx = none ∧ alGet m'.keys k = none ∧
      (∀ k2, k2 ≠ k → alGet m'.keys k2 = alGet m.keys k2) ∧
      (∀ j, j ≠ idx → alGet m'.data j = alGet m.data j) := by
  have hk : alGet m.keys k = some idx := by
    unfold entry at he
    cases hk : alGet m.keys k with
    | none => rw [hk] at he; exact absurd he (by simp)
    | some i =>
      rw [hk] at he
      cases he
      rfl
  refine ⟨⟨alErase m.keys k, alErase m.data idx, m.max_index⟩,
    by simp [remove_entry, hk], ?_, ?_, ?_, ?_⟩
  · exact alGet_alErase_self m.data idx
  · exact alGet_alErase_self m.keys k
  · intro k2 hk2
    exact alGet_alErase_ne m.keys k k2 (Ne.symm hk2)
  · intro j hj
    exact alGet_alErase_ne m.data idx j (Ne.symm hj)

/-- Witness for C4 at a concrete input: keys 0 and 1 share a group of count
2; `remove_entry` on key 0 still deletes the whole group, leaving key 1
dangling. -/
theorem remove_entry_witness :
    ∃ m', remove_entry (⟨[(1, 0), (0, 0)], [(0, (2, 7))], 1⟩ : MultiKeyMap Nat Nat)
          0 0
        = some ((0, (alGet (⟨[(1, 0), (0, 0)], [(0, (2, 7))], 1⟩ :
            MultiKeyMap Nat Nat).data 0).map (fun q => q.2)), m') ∧
      alGet m'.data 0 = none ∧ alGet m'.keys 0 = none ∧
      (∀ k2, k2 ≠ 0 → alGet m'.keys k2
        = alGet (⟨[(1, 0), (0, 0)], [(0, (2, 7))], 1⟩ : MultiKeyMap Nat Nat).keys k2) ∧
      (∀ j, j ≠ 0 → alGet m'.data j
        = alGet (⟨[(1, 0), (0, 0)], [(0, (2, 7))], 1⟩ : MultiKeyMap Nat Nat).data j) :=
  remove_entry_spec ⟨[(1, 0), (0, 0)], [(0, (2, 7))], 1⟩ 0 0 rfl

/-- C1: inserting at a present key overwrites in place and returns the old
value when the key is sole owner (count ≤ 1); otherwise it decrements the
old group's count, allocates a fresh slot with count 1 holding the new
value, redirects the key there, and returns empty. -/
theorem insert_present (m : MultiKeyMap K V) (k : K) (v : V) (idx c : Nat)
    (w : V) (hw : Wf m) (hk : alGet m.keys k = some idx)
    (hd : alGet m.data idx = some (c, w)) :
    (c ≤ 1 → ∃ m', insert m k v = some (m', some w) ∧
      m'.keys = m.keys ∧ alGet m'.keys k = some idx ∧
      alGet m'.data idx = some (1, v) ∧
      (∀ j, j ≠ idx → alGet m'.data j = alGet m.data j) ∧
      m'.max_index = m.max_index) ∧
    (1 < c → ∃ m', insert m k v = some (m', none) ∧
      alGet m'.keys k = some m.max_index ∧
      alGet m'.data m.max_index = some (1, v) ∧
      alGet m'.data idx = some (c - 1, w) ∧
      m'.max_index = m.max_index + 1) := by
  have hbound : idx < m.max_index := hw.2.2.2 (idx, (c, w)) (alGet_mem m.data idx (c, w) hd)
  constructor
  · intro hc
    refine ⟨⟨m.keys, alInsert m.data idx (1, v), m.max_index⟩,
      by simp [insert, hk, hd, if_pos hc], rfl, hk, ?_, ?_, rfl⟩
    · exact alGet_alInsert_self m.data idx (1, v)
    · intro j hj
      exact alGet_alInsert_ne m.data idx (1, v) j (Ne.symm hj)
  · intro hc
    have hc' : ¬ c ≤ 1 := by omega
    have hne : idx ≠ m.max_index := by omega
    refine ⟨⟨alInsert m.keys k m.max_index,
        alInsert (alInsert m.data idx (c - 1, w)) m.max_index (1, v),
        m.max_index + 1⟩,
      by simp [insert, hk, hd, if_neg hc'], ?_, ?_, ?_, rfl⟩
    · exact alGet_alInsert_self m.keys k m.max_index
    · exact alGet_alInsert_self _ m.max_index (1, v)
    · rw [alGet_alInsert_ne _ m.max_index (1, v) idx (Ne.symm hne)]
      exact alGet_alInsert_self m.data idx (c - 1, w)

/-- Witness for C1 at a concrete input: keys 0 and 1 share a group of count
2, so inserting at key 0 detaches it onto fresh slot 1 and returns empty. -/
theorem insert_present_witness :
    ∃ m', insert (⟨[(1, 0), (0, 0)], [(0, (2, 7))], 1⟩ : MultiKeyMap Nat Nat) 0 9
        = some (m', none) ∧
      alGet m'.keys 0 = some 1 ∧ alGet m'.data 1 = some (1, 9) ∧
      alGet m'.data 0 = some (1, 7) ∧ m'.max_index = 2 :=
  (insert_present ⟨[(1, 0), (0, 0)], [(0, (2, 7))], 1⟩ 0 9 0 2 7 (by decide)
    (by decide) (by decide)).2 (by decide)

/-- C5 counterexample: starting from the empty map, insert 0 ↦ 1 and 1 ↦ 2,
then `insert_many [1] 3`; key 1 was sole owner, so its group is deleted and
key 1 is left dangling.  The pair iterator then yields no pairs at all, even
though the slot lookup for key 0 succeeds — a dangling entry ends the
iteration instead of being skipped. -/
theorem iter_stops_counterexample :
    insert (⟨[], [], 0⟩ : MultiKeyMap Nat Nat) 0 1
        = some (⟨[(0, 0)], [(0, (1, 1))], 1⟩, none) ∧
    insert (⟨[(0, 0)], [(0, (1, 1))], 1⟩ : MultiKeyMap Nat Nat) 1 2
        = some (⟨[(1, 1), (0, 0)], [(1, (1, 2)), (0, (1, 1))], 2⟩, none) ∧
    insert_many (⟨[(1, 1), (0, 0)], [(1, (1, 2)), (0, (1, 1))], 2⟩ :
        MultiKeyMap Nat Nat) [1] 3
        = some (⟨[(1, 1), (0, 0)], [(2, (0, 3)), (0, (1, 1))], 3⟩, [2]) ∧
    iter (⟨[(1, 1), (0, 0)], [(2, (0, 3)), (0, (1, 1))], 3⟩ :
        MultiKeyMap Nat Nat) = [] ∧
    get (⟨[(1, 1), (0, 0)], [(2, (0, 3)), (0, (1, 1))], 3⟩ :
        MultiKeyMap Nat Nat) 0 = some 1 :=
  ⟨by decide, by decide, by decide, by decide, by decide⟩

/-- C5 amended: the pair iterator yields one `(key, value)` pair per
alias-table entry for the longest prefix of entries whose slot lookup
succeeds; an entry whose slot lookup fails ends the iteration there (it is
not skipped, and later entries are not yielded).  When every entry's lookup
succeeds — in particular under the nominal invariant — exactly one pair per
alias-table entry is yielded. -/
theorem iter_spec (m : MultiKeyMap K V) :
    iter m = (m.keys.takeWhile (fun p => (alGet m.data p.2).isSome)).filterMap
        (fun p => (alGet m.data p.2).map (fun q => (p.1, q.2))) ∧
    ((∀ p ∈ m.keys, (alGet m.data p.2).isSome = true) →
      (iter m).length = m.keys.length) := by
  have hgo : ∀ (l : List (K × Nat)),
      iterGo m.data l = (l.takeWhile (fun p => (alGet m.data p.2).isSome)).filterMap
        (fun p => (alGet m.data p.2).map (fun q => (p.1, q.2))) := by
    intro l
    induction l with
    | nil => rfl
    | cons p rest ih =>
      obtain ⟨k, idx⟩ := p
      cases hd : alGet m.data idx with
      | none => simp [iterGo, hd, List.takeWhile]
      | some q => simp [iterGo, hd, List.takeWhile, ih]
  have hlen : ∀ (l : List (K × Nat)), (∀ p ∈ l, (alGet m.data p.2).isSome = true) →
      (iterGo m.data l).length = l.length := by
    intro l
    induction l with
    | nil => intro _; rfl
    | cons p rest ih =>
      intro hall
      obtain ⟨k, idx⟩ := p
      have hs : (alGet m.data idx).isSome = true := hall (k, idx) (by simp)
      cases hd : alGet m.data idx with
      | none => rw [hd] at hs; simp at hs
      | some q =>
        have := ih (fun p hp => hall p (List.mem_cons_of_mem _ hp))
        simp [iterGo, hd, this]
  exact ⟨hgo m.keys, hlen m.keys⟩

/-- Witness for C5 at the concrete map from the spec's example: keys "a" and
"b" aliased to one value and "c" independent; the iterator yields exactly 3
pairs, and the pairs for "a" and "b" carry equal values. -/
theorem iter_spec_witness :
    (iter (⟨[("c", 1), ("b", 0), ("a", 0)], [(1, (1, 2)), (0, (2, 1))], 2⟩ :
        MultiKeyMap String Nat)).length
      = (⟨[("c", 1), ("b", 0), ("a", 0)], [(1, (1, 2)), (0, (2, 1))], 2⟩ :
        MultiKeyMap String Nat).keys.length ∧
    iter (⟨[("c", 1), ("b", 0), ("a", 0)], [(1, (1, 2)), (0, (2, 1))], 2⟩ :
        MultiKeyMap String Nat) = [("c", 2), ("b", 1), ("a", 1)] :=
  ⟨(iter_spec ⟨[("c", 1), ("b", 0), ("a", 0)], [(1, (1, 2)), (0, (2, 1))], 2⟩).2
      (by decide),
    by decide⟩

/-- C2 counterexample: on the empty (trivially reachable) map, the mutating
operation `insert_many [] 0` creates a group-table entry with reference
count 0 that no alias targets, so the stated invariant fails after a public
mutating operation. -/
theorem inv_counterexample :
    insert_many (⟨[], [], 0⟩ : MultiKeyMap Nat Nat) [] 0
        = some (⟨[], [(0, (0, 0))], 1⟩, []) ∧
    ¬ Inv (⟨[], [(0, (0, 0))], 1⟩ : MultiKeyMap Nat Nat) :=
  ⟨by decide, by decide⟩

end MultiKeyMap

namespace MultiKey

variable {A : Type u} {B : Type v} [DecidableEq A]

theorem alGet_isSome_of_mem (l : List (A × B)) (q : A × B) (hq : q ∈ l) :
    (alGet l q.1).isSome = true := by
  induction l with
  | nil => simp at hq
  | cons p l ih =>
    by_cases hp : p.1 = q.1
    · simp [alGet, hp]
    · rcases List.mem_cons.mp hq with rfl | hq2
      · exact absurd rfl hp
      · simp [alGet, hp, ih hq2]

theorem countAliases_pos {K : Type u} [DecidableEq K] (l : List (K × Nat))
    (q : K × Nat) (j : Nat) (hq : q ∈ l) (ht : q.2 = j) :
    1 ≤ countAliases l j := by
  induction l with
  | nil => simp at hq
  | cons p l ih =>
    have hsum : countAliases (p :: l) j
        = (if p.2 = j then 1 else 0) + countAliases l j := rfl
    rcases List.mem_cons.mp hq with rfl | hq2
    · rw [hsum, if_pos ht]
      omega
    · have := ih hq2
      rw [hsum]
      omega

theorem countAliases_two {K : Type u} [DecidableEq K] (l : List (K × Nat))
    (p1 p2 : K × Nat) (j : Nat) (h1 : p1 ∈ l) (h2 : p2 ∈ l) (hne : p1 ≠ p2)
    (t1 : p1.2 = j) (t2 : p2.2 = j) :
    2 ≤ countAliases l j := by
  induction l with
  | nil => simp at h1
  | cons p l ih =>
    rcases List.mem_cons.mp h1 with rfl | h1t
    · rcases List.mem_cons.mp h2 with h2h | h2t
      · exact absurd h2h.symm hne
      · have hsum : countAliases (p1 :: l) j
            = (if p1.2 = j then 1 else 0) + countAliases l j := rfl
        have := countAliases_pos l p2 j h2t t2
        rw [hsum, if_pos t1]
        omega
    · rcases List.mem_cons.mp h2 with rfl | h2t
      · have hsum : countAliases (p2 :: l) j
            = (if p2.2 = j then 1 else 0) + countAliases l j := rfl
        have := countAliases_pos l p1 j h1t t1
        rw [hsum, if_pos t2]
        omega
      · have hsum : countAliases (p :: l) j
            = (if p.2 = j then 1 else 0) + countAliases l j := rfl
        have := ih h1t h2t
        rw [hsum]
        omega

end MultiKey

namespace MultiKeyMap

variable {K : Type u} {V : Type v} [DecidableEq K]

/-- Adding a brand-new key with a fresh slot of count 1 (the shared tail of
`insert`'s absent branch and `VacantEntry::insert`) preserves the tables'
well-formedness and the counting invariant. -/
theorem fresh_add_wf_inv (m : MultiKeyMap K V) (k : K) (v : V)
    (hw : Wf m) (hI : Inv m) (hk : alGet m.keys k = none) :
    Wf (⟨alInsert m.keys k m.max_index, alInsert m.data m.max_index (1, v),
        m.max_index + 1⟩ : MultiKeyMap K V) ∧
    Inv (⟨alInsert m.keys k m.max_index, alInsert m.data m.max_index (1, v),
        m.max_index + 1⟩ : MultiKeyMap K V) := by
  obtain ⟨hndk, hndd, hbk, hbd⟩ := hw
  have hkeys0 : countAliases m.keys m.max_index = 0 :=
    (countAliases_eq_zero m.keys m.max_index).mpr
      (fun q hq => Nat.ne_of_lt (hbk q hq))
  refine ⟨⟨nodupFst_alInsert _ _ _ hndk, nodupFst_alInsert _ _ _ hndd, ?_, ?_⟩, ?_⟩
  · intro p hp
    rcases (mem_alInsert m.keys k m.max_index p).mp hp with rfl | ⟨hmem, -⟩
    · exact Nat.lt_succ_self _
    · exact Nat.lt_succ_of_lt (hbk p hmem)
  · intro q hq
    rcases (mem_alInsert m.data m.max_index (1, v) q).mp hq with rfl | ⟨hmem, -⟩
    · exact Nat.lt_succ_self _
    · exact Nat.lt_succ_of_lt (hbd q hmem)
  · intro q hq
    rcases (mem_alInsert m.data m.max_index (1, v) q).mp hq with rfl | ⟨hmem, hne⟩
    · have h1 : countAliases (alInsert m.keys k m.max_index) m.max_index = 1 := by
        rw [countAliases_alInsert_absent m.keys k m.max_index m.max_index hk,
          hkeys0]
        simp
      exact ⟨by simp [h1], by simp [h1]⟩
    · have := hI q hmem
      have hrw : countAliases (alInsert m.keys k m.max_index) q.1
          = countAliases m.keys q.1 := by
        rw [countAliases_alInsert_absent m.keys k m.max_index q.1 hk,
          if_neg (fun hc => hne hc.symm)]
        omega
      rw [hrw]
      exact this

/-- A successful `insert` preserves well-formedness and the counting
invariant, in all three branches. -/
theorem insert_wf_inv (m : MultiKeyMap K V) (k : K) (v : V)
    (m' : MultiKeyMap K V) (r : Option V) (hw : Wf m) (hI : Inv m)
    (h : insert m k v = some (m', r)) : Wf m' ∧ Inv m' := by
  cases hk : alGet m.keys k with
  | none =>
    simp only [insert, hk, Option.some.injEq, Prod.mk.injEq] at h
    obtain ⟨hm, -⟩ := h
    subst hm
    exact fresh_add_wf_inv m k v hw hI hk
  | some idx =>
    obtain ⟨hndk, hndd, hbk, hbd⟩ := hw
    cases hd : alGet m.data idx with
    | none => simp [insert, hk, hd] at h
    | some p =>
      obtain ⟨c, w⟩ := p
      have hmem := alGet_mem m.data idx (c, w) hd
      have hidx : idx < m.max_index := hbd _ hmem
      have hcc : c = countAliases m.keys idx ∧ 1 ≤ countAliases m.keys idx :=
        hI _ hmem
      by_cases hc : c ≤ 1
      · simp only [insert, hk, hd, if_pos hc, Option.some.injEq,
          Prod.mk.injEq] at h
        obtain ⟨hm, -⟩ := h
        subst hm
        refine ⟨⟨hndk, nodupFst_alInsert _ _ _ hndd, hbk, ?_⟩, ?_⟩
        · intro q hq
          rcases (mem_alInsert m.data idx (1, v) q).mp hq with rfl | ⟨hmem2, -⟩
          · exact hidx
          · exact hbd q hmem2
        · intro q hq
          rcases (mem_alInsert m.data idx (1, v) q).mp hq with rfl | ⟨hmem2, hne⟩
          · have h1 : countAliases m.keys idx = 1 := by omega
            exact ⟨by simp [h1], by simp [h1]⟩
          · exact hI q hmem2
      · simp only [insert, hk, hd, if_neg hc, Option.some.injEq,
          Prod.mk.injEq] at h
        obtain ⟨hm, -⟩ := h
        subst hm
        have hidxmax : idx ≠ m.max_index := Nat.ne_of_lt hidx
        have herase : ∀ j, countAliases m.keys j
            = countAliases (alErase m.keys k) j + (if idx = j then 1 else 0) :=
          fun j => countAliases_alErase m.keys k idx j hndk hk
        have hkeys' : ∀ j, countAliases (alInsert m.keys k m.max_index) j
            = (if m.max_index = j then 1 else 0)
              + countAliases (alErase m.keys k) j :=
          fun j => countAliases_alInsert m.keys k m.max_index j
        have herase0 : countAliases (alErase m.keys k) m.max_index = 0 := by
          rw [countAliases_eq_zero]
          intro q hq
          exact Nat.ne_of_lt (hbk q ((mem_alErase m.keys k q).mp hq).1)
        refine ⟨⟨nodupFst_alInsert _ _ _ hndk,
          nodupFst_alInsert _ _ _ (nodupFst_alInsert _ _ _ hndd), ?_, ?_⟩, ?_⟩
        · intro p hp
          rcases (mem_alInsert m.keys k m.max_index p).mp hp with rfl | ⟨hmem2, -⟩
          · exact Nat.lt_succ_self _
          · exact Nat.lt_succ_of_lt (hbk p hmem2)
        · intro q hq
          rcases (mem_alInsert _ m.max_index (1, v) q).mp hq with rfl | ⟨hq2, -⟩
          · exact Nat.lt_succ_self _
          · rcases (mem_alInsert m.data idx (c - 1, w) q).mp hq2
              with rfl | ⟨hmem2, -⟩
            · exact Nat.lt_succ_of_lt hidx
            · exact Nat.lt_succ_of_lt (hbd q hmem2)
        · intro q hq
          rcases (mem_alInsert _ m.max_index (1, v) q).mp hq with rfl | ⟨hq2, hne⟩
          · have h1 : countAliases (alInsert m.keys k m.max_index) m.max_index
                = 1 := by
              rw [hkeys' m.max_index, herase0, if_pos rfl]
            exact ⟨by simp [h1], by simp [h1]⟩
          · rcases (mem_alInsert m.data idx (c - 1, w) q).mp hq2
              with rfl | ⟨hmem2, hne2⟩
            · have hcount : countAliases (alInsert m.keys k m.max_index) idx
                  = c - 1 := by
                rw [hkeys' idx, if_neg (fun hc2 => hidxmax hc2.symm)]
                have := herase idx
                rw [if_pos rfl] at this
                omega
              have hge : 1 ≤ c - 1 := by omega
              exact ⟨by simp [hcount], by simp [hcount, hge]⟩
            · have hcount : countAliases (alInsert m.keys k m.max_index) q.1
                  = countAliases m.keys q.1 := by
                rw [hkeys' q.1, if_neg (fun hc2 => hne hc2.symm)]
                have := herase q.1
                rw [if_neg (fun hc2 => hne2 hc2.symm)] at this
                omega
              rw [hcount]
              exact hI q hmem2

/-- A successful `alias` whose new key is not already present preserves
well-formedness and the counting invariant. -/
theorem alias_wf_inv (m : MultiKeyMap K V) (k a : K)
    (m' : MultiKeyMap K V) (r : Except K V) (hw : Wf m) (hI : Inv m)
    (ha : alGet m.keys a = none)
    (h : alias' m k a = some (m', r)) : Wf m' ∧ Inv m' := by
  cases hk : alGet m.keys k with
  | none =>
    simp only [alias', hk, Option.some.injEq, Prod.mk.injEq] at h
    obtain ⟨hm, -⟩ := h
    subst hm
    exact ⟨hw, hI⟩
  | some idx =>
    obtain ⟨hndk, hndd, hbk, hbd⟩ := hw
    cases hd : alGet m.data idx with
    | none => simp [alias', hk, hd] at h
    | some p =>
      obtain ⟨c, v⟩ := p
      have hmem := alGet_mem m.data idx (c, v) hd
      have hidx : idx < m.max_index := hbd _ hmem
      have hcc : c = countAliases m.keys idx ∧ 1 ≤ countAliases m.keys idx :=
        hI _ hmem
      simp only [alias', hk, hd, Option.some.injEq, Prod.mk.injEq] at h
      obtain ⟨hm, -⟩ := h
      subst hm
      have hkeys' : ∀ j, countAliases (alInsert m.keys a idx) j
          = (if idx = j then 1 else 0) + countAliases m.keys j :=
        fun j => countAliases_alInsert_absent m.keys a idx j ha
      refine ⟨⟨nodupFst_alInsert _ _ _ hndk, nodupFst_alInsert _ _ _ hndd,
        ?_, ?_⟩, ?_⟩
      · intro p hp
        rcases (mem_alInsert m.keys a idx p).mp hp with rfl | ⟨hm2, -⟩
        · exact hidx
        · exact hbk p hm2
      · intro q hq
        rcases (mem_alInsert m.data idx (c + 1, v) q).mp hq with rfl | ⟨hm2, -⟩
        · exact hidx
        · exact hbd q hm2
      · intro q hq
        rcases (mem_alInsert m.data idx (c + 1, v) q).mp hq with rfl | ⟨hm2, hne⟩
        · have h1 : countAliases (alInsert m.keys a idx) idx = c + 1 := by
            rw [hkeys' idx, if_pos rfl]
            omega
          exact ⟨by simp [h1], by simp [h1]⟩
        · have h2 : countAliases (alInsert m.keys a idx) q.1
              = countAliases m.keys q.1 := by
            rw [hkeys' q.1, if_neg (fun hc => hne hc.symm)]
            omega
          rw [h2]
          exact hI q hm2

/-- Any entry of the alias table produced by `alias_many`'s insertion loop is
either an old entry or targets the shared slot. -/
theorem foldl_alInsert_mem (as : List K) (idx : Nat) :
    ∀ (keysl : List (K × Nat)) (p : K × Nat),
      p ∈ as.foldl (fun ks a => alInsert ks a idx) keysl →
      p ∈ keysl ∨ p.2 = idx := by
  induction as with
  | nil =>
    intro keysl p hp
    exact Or.inl hp
  | cons a as ih =>
    intro keysl p hp
    rcases ih (alInsert keysl a idx) p hp with hmem | ht
    · rcases (mem_alInsert keysl a idx p).mp hmem with rfl | ⟨hm2, -⟩
      · exact Or.inr rfl
      · exact Or.inl hm2
    · exact Or.inr ht

/-- When the keys added by `alias_many`'s loop are new and pairwise
distinct, the loop keeps the alias table duplicate-free and raises the
shared slot's alias count by exactly the number of keys. -/
theorem foldl_alInsert_fresh (as : List K) (idx : Nat) :
    ∀ (keysl : List (K × Nat)), NodupFst keysl → as.Nodup →
      (∀ a ∈ as, alGet keysl a = none) →
      NodupFst (as.foldl (fun ks a => alInsert ks a idx) keysl) ∧
      ∀ j, countAliases (as.foldl (fun ks a => alInsert ks a idx) keysl) j
        = countAliases keysl j + (if idx = j then as.length else 0) := by
  induction as with
  | nil =>
    intro keysl hnd hnd2 hfresh
    refine ⟨hnd, fun j => by simp⟩
  | cons a as ih =>
    intro keysl hnd hnd2 hfresh
    have hfa : alGet keysl a = none := hfresh a (List.mem_cons_self a as)
    have hnodup2 := List.nodup_cons.mp hnd2
    have hfresh2 : ∀ a2 ∈ as, alGet (alInsert keysl a idx) a2 = none := by
      intro a2 ha2
      have hne : a ≠ a2 := fun hc => hnodup2.1 (hc ▸ ha2)
      rw [alGet_alInsert_ne keysl a idx a2 hne]
      exact hfresh a2 (List.mem_cons_of_mem a ha2)
    obtain ⟨ihnd, ihcnt⟩ := ih (alInsert keysl a idx)
      (nodupFst_alInsert _ _ _ hnd) hnodup2.2 hfresh2
    refine ⟨ihnd, ?_⟩
    intro j
    rw [show (a :: as).foldl (fun ks a => alInsert ks a idx) keysl
        = as.foldl (fun ks a => alInsert ks a idx) (alInsert keysl a idx)
        from rfl,
      ihcnt j, countAliases_alInsert_absent keysl a idx j hfa]
    by_cases hj : idx = j
    · simp only [if_pos hj, List.length_cons]
      omega
    · simp only [if_neg hj]
      omega

/-- A successful `alias_many` whose added keys are new and pairwise distinct
preserves well-formedness and the counting invariant. -/
theorem alias_many_wf_inv (m : MultiKeyMap K V) (k : K) (as : List K)
    (m' : MultiKeyMap K V) (r : Except (List K) V) (hw : Wf m) (hI : Inv m)
    (hnd2 : as.Nodup) (hfresh : ∀ a ∈ as, alGet m.keys a = none)
    (h : alias_many m k as = some (m', r)) : Wf m' ∧ Inv m' := by
  cases hk : alGet m.keys k with
  | none =>
    simp only [alias_many, hk, Option.some.injEq, Prod.mk.injEq] at h
    obtain ⟨hm, -⟩ := h
    subst hm
    exact ⟨hw, hI⟩
  | some idx =>
    obtain ⟨hndk, hndd, hbk, hbd⟩ := hw
    cases hd : alGet m.data idx with
    | none => simp [alias_many, hk, hd] at h
    | some p =>
      obtain ⟨c, v⟩ := p
      have hmem := alGet_mem m.data idx (c, v) hd
      have hidx : idx < m.max_index := hbd _ hmem
      have hcc : c = countAliases m.keys idx ∧ 1 ≤ countAliases m.keys idx :=
        hI _ hmem
      simp only [alias_many, hk, hd, Option.some.injEq, Prod.mk.injEq] at h
      obtain ⟨hm, -⟩ := h
      subst hm
      obtain ⟨fnd, fcnt⟩ := foldl_alInsert_fresh as idx m.keys hndk hnd2 hfresh
      refine ⟨⟨fnd, nodupFst_alInsert _ _ _ hndd, ?_, ?_⟩, ?_⟩
      · intro p hp
        rcases foldl_alInsert_mem as idx m.keys p hp with hm2 | ht
        · exact hbk p hm2
        · rw [ht]
          exact hidx
      · intro q hq
        rcases (mem_alInsert m.data idx (c + as.length, v) q).mp hq
          with rfl | ⟨hm2, -⟩
        · exact hidx
        · exact hbd q hm2
      · intro q hq
        rcases (mem_alInsert m.data idx (c + as.length, v) q).mp hq
          with rfl | ⟨hm2, hne⟩
        · have h1 : countAliases
              (as.foldl (fun ks a => alInsert ks a idx) m.keys) idx
              = c + as.length := by
            rw [fcnt idx, if_pos rfl]
            omega
          exact ⟨by simp [h1], by simp [h1]; omega⟩
        · have h2 : countAliases
              (as.foldl (fun ks a => alInsert ks a idx) m.keys) q.1
              = countAliases m.keys q.1 := by
            rw [fcnt q.1, if_neg (fun hc => hne hc.symm)]
            omega
          rw [h2]
          exact hI q hm2

/-- A successful `remove` preserves well-formedness and the counting
invariant. -/
theorem remove_wf_inv (m : MultiKeyMap K V) (k : K)
    (m' : MultiKeyMap K V) (r : Option V) (hw : Wf m) (hI : Inv m)
    (h : remove m k = some (m', r)) : Wf m' ∧ Inv m' := by
  cases hk : alGet m.keys k with
  | none =>
    simp only [remove, hk, Option.some.injEq, Prod.mk.injEq] at h
    obtain ⟨hm, -⟩ := h
    subst hm
    exact ⟨hw, hI⟩
  | some idx =>
    obtain ⟨hndk, hndd, hbk, hbd⟩ := hw
    cases hd : alGet m.data idx with
    | none => simp [remove, hk, hd] at h
    | some p =>
      obtain ⟨c, w⟩ := p
      have hmem := alGet_mem m.data idx (c, w) hd
      have hcc : c = countAliases m.keys idx ∧ 1 ≤ countAliases m.keys idx :=
        hI _ hmem
      have herase : ∀ j, countAliases m.keys j
          = countAliases (alErase m.keys k) j + (if idx = j then 1 else 0) :=
        fun j => countAliases_alErase m.keys k idx j hndk hk
      by_cases hc : c = 1
      · simp only [remove, hk, hd, if_pos hc, Option.some.injEq,
          Prod.mk.injEq] at h
        obtain ⟨hm, -⟩ := h
        subst hm
        refine ⟨⟨nodupFst_alErase _ _ hndk, nodupFst_alErase _ _ hndd,
          ?_, ?_⟩, ?_⟩
        · intro p hp
          exact hbk p ((mem_alErase m.keys k p).mp hp).1
        · intro q hq
          exact hbd q ((mem_alErase m.data idx q).mp hq).1
        · intro q hq
          obtain ⟨hm2, hne⟩ := (mem_alErase m.data idx q).mp hq
          have h2 : countAliases (alErase m.keys k) q.1
              = countAliases m.keys q.1 := by
            have := herase q.1
            rw [if_neg (fun hc2 => hne hc2.symm)] at this
            omega
          rw [h2]
          exact hI q hm2
      · simp only [remove, hk, hd, if_neg hc, Option.some.injEq,
          Prod.mk.injEq] at h
        obtain ⟨hm, -⟩ := h
        subst hm
        have hc2 : 2 ≤ c := by omega
        refine ⟨⟨nodupFst_alErase _ _ hndk, nodupFst_alInsert _ _ _ hndd,
          ?_, ?_⟩, ?_⟩
        · intro p hp
          exact hbk p ((mem_alErase m.keys k p).mp hp).1
        · intro q hq
          rcases (mem_alInsert m.data idx (c - 1, w) q).mp hq with rfl | ⟨hm2, -⟩
          · exact hbd (idx, (c, w)) hmem
          · exact hbd q hm2
        · intro q hq
          rcases (mem_alInsert m.data idx (c - 1, w) q).mp hq
            with rfl | ⟨hm2, hne⟩
          · have h1 : countAliases (alErase m.keys k) idx = c - 1 := by
              have := herase idx
              rw [if_pos rfl] at this
              omega
            have hge : 1 ≤ c - 1 := by omega
            exact ⟨by simp [h1], by simp [h1, hge]⟩
          · have h2 : countAliases (alErase m.keys k) q.1
                = countAliases m.keys q.1 := by
              have := herase q.1
              rw [if_neg (fun hc2 => hne hc2.symm)] at this
              omega
            rw [h2]
            exact hI q hm2

/-- A successful `remove_many` preserves well-formedness and the counting
invariant. -/
theorem remove_many_wf_inv (ks : List K) :
    ∀ (m m' : MultiKeyMap K V) (b : List V), Wf m → Inv m →
      remove_many m ks = some (m', b) → Wf m' ∧ Inv m' := by
  induction ks with
  | nil =>
    intro m m' b hw hI h
    simp only [remove_many, Option.some.injEq, Prod.mk.injEq] at h
    obtain ⟨hm, -⟩ := h
    subst hm
    exact ⟨hw, hI⟩
  | cons k ks ih =>
    intro m m' b hw hI h
    cases h1 : remove m k with
    | none => simp [remove_many, h1] at h
    | some p =>
      obtain ⟨m1, r⟩ := p
      obtain ⟨hw1, hI1⟩ := remove_wf_inv m k m1 r hw hI h1
      simp only [remove_many, h1] at h
      cases h2 : remove_many m1 ks with
      | none => simp [h2] at h
      | some p2 =>
        obtain ⟨m2, vs⟩ := p2
        simp only [h2, Option.some.injEq, Prod.mk.injEq] at h
        obtain ⟨hm, -⟩ := h
        subst hm
        exact ih m1 m2 vs hw1 hI1 h2

/-- `VacantEntry::insert` on a key that is absent (the only state in which a
vacant handle exists) preserves well-formedness and the counting
invariant. -/
theorem vacant_insert_wf_inv (m : MultiKeyMap K V) (k : K) (v : V)
    (hw : Wf m) (hI : Inv m) (hk : alGet m.keys k = none) :
    Wf (vacant_insert m k v) ∧ Inv (vacant_insert m k v) :=
  fresh_add_wf_inv m k v hw hI hk

/-- C2 corrected: from a well-formed state satisfying the invariant, the
mutating operations `insert`, `remove`, `remove_many`, vacant-entry
`insert` and occupied-entry `remove` preserve it, and `alias`/`alias_many`
preserve it when the keys they add are not already present (and, for
`alias_many`, pairwise distinct).  `insert_many` and `remove_entry` are the
two exceptions that can break it (see the counterexample). -/
theorem inv_preserved (m : MultiKeyMap K V) (hw : Wf m) (hI : Inv m) :
    (∀ k v m' r, insert m k v = some (m', r) → Wf m' ∧ Inv m') ∧
    (∀ k a m' r, alGet m.keys a = none →
      alias' m k a = some (m', r) → Wf m' ∧ Inv m') ∧
    (∀ k as m' r, as.Nodup → (∀ a ∈ as, alGet m.keys a = none) →
      alias_many m k as = some (m', r) → Wf m' ∧ Inv m') ∧
    (∀ k m' r, remove m k = some (m', r) → Wf m' ∧ Inv m') ∧
    (∀ ks m' b, remove_many m ks = some (m', b) → Wf m' ∧ Inv m') ∧
    (∀ k v, alGet m.keys k = none →
      Wf (vacant_insert m k v) ∧ Inv (vacant_insert m k v)) ∧
    (∀ k m' r, occupied_remove m k = some (m', r) → Wf m' ∧ Inv m') := by
  refine ⟨fun k v m' r h => insert_wf_inv m k v m' r hw hI h,
    fun k a m' r ha h => alias_wf_inv m k a m' r hw hI ha h,
    fun k as m' r hnd2 hfresh h =>
      alias_many_wf_inv m k as m' r hw hI hnd2 hfresh h,
    fun k m' r h => remove_wf_inv m k m' r hw hI h,
    fun ks m' b h => remove_many_wf_inv ks m m' b hw hI h,
    fun k v hk => vacant_insert_wf_inv m k v hw hI hk,
    fun k m' r h => remove_wf_inv m k m' r hw hI h⟩

/-- Witness for C2's amended statement at a concrete input: the invariant
holds again after overwriting the sole-owned key 0 of a one-entry map. -/
theorem inv_preserved_witness :
    Wf (⟨[(0, 0)], [(0, (1, 9))], 1⟩ : MultiKeyMap Nat Nat) ∧
    Inv (⟨[(0, 0)], [(0, (1, 9))], 1⟩ : MultiKeyMap Nat Nat) :=
  (inv_preserved ⟨[(0, 0)], [(0, (1, 5))], 1⟩ (by decide) (by decide)).1
    0 9 ⟨[(0, 0)], [(0, (1, 9))], 1⟩ (some 5) (by decide)

theorem freshStep_trans (m1 m2 m3 : MultiKeyMap K V)
    (h12 : FreshStep m1 m2) (h23 : FreshStep m2 m3) : FreshStep m1 m3 := by
  obtain ⟨ha, hb, hc⟩ := h12
  obtain ⟨hd, he, hf⟩ := h23
  refine ⟨le_trans ha hd, he, ?_⟩
  intro q hq
  rcases hf q hq with hs | hge
  · cases h2 : alGet m2.data q.1 with
    | none => rw [h2] at hs; simp at hs
    | some w2 =>
      have hmem := alGet_mem m2.data q.1 w2 h2
      rcases hc (q.1, w2) hmem with hs1 | hge1
      · exact Or.inl hs1
      · exact Or.inr hge1
  · exact Or.inr (le_trans ha hge)

/-- A successful `insert` allocates only at or above the old counter. -/
theorem insert_fresh_step (m : MultiKeyMap K V) (hb : IdxBound m) (k : K)
    (v : V) (m' : MultiKeyMap K V) (r : Option V)
    (h : insert m k v = some (m', r)) : FreshStep m m' := by
  obtain ⟨hbk, hbd⟩ := hb
  cases hk : alGet m.keys k with
  | none =>
    simp only [insert, hk, Option.some.injEq, Prod.mk.injEq] at h
    obtain ⟨hm, -⟩ := h
    subst hm
    refine ⟨Nat.le_succ _, ⟨?_, ?_⟩, ?_⟩
    · intro p hp
      rcases (mem_alInsert m.keys k m.max_index p).mp hp with rfl | ⟨hm2, -⟩
      · exact Nat.lt_succ_self _
      · exact Nat.lt_succ_of_lt (hbk p hm2)
    · intro q hq
      rcases (mem_alInsert m.data m.max_index (1, v) q).mp hq with rfl | ⟨hm2, -⟩
      · exact Nat.lt_succ_self _
      · exact Nat.lt_succ_of_lt (hbd q hm2)
    · intro q hq
      rcases (mem_alInsert m.data m.max_index (1, v) q).mp hq with rfl | ⟨hm2, -⟩
      · exact Or.inr (Nat.le_refl _)
      · exact Or.inl (alGet_isSome_of_mem m.data q hm2)
  | some idx =>
    cases hd : alGet m.data idx with
    | none => simp [insert, hk, hd] at h
    | some p =>
      obtain ⟨c, w⟩ := p
      have hidx : idx < m.max_index := hbd _ (alGet_mem m.data idx (c, w) hd)
      by_cases hc : c ≤ 1
      · simp only [insert, hk, hd, if_pos hc, Option.some.injEq,
          Prod.mk.injEq] at h
        obtain ⟨hm, -⟩ := h
        subst hm
        refine ⟨Nat.le_refl _, ⟨hbk, ?_⟩, ?_⟩
        · intro q hq
          rcases (mem_alInsert m.data idx (1, v) q).mp hq with rfl | ⟨hm2, -⟩
          · exact hidx
          · exact hbd q hm2
        · intro q hq
          rcases (mem_alInsert m.data idx (1, v) q).mp hq with rfl | ⟨hm2, -⟩
          · exact Or.inl (by rw [show ((idx, (1, v)) : Nat × Nat × V).1 = idx
              from rfl, hd]; rfl)
          · exact Or.inl (alGet_isSome_of_mem m.data q hm2)
      · simp only [insert, hk, hd, if_neg hc, Option.some.injEq,
          Prod.mk.injEq] at h
        obtain ⟨hm, -⟩ := h
        subst hm
        refine ⟨Nat.le_succ _, ⟨?_, ?_⟩, ?_⟩
        · intro p hp
          rcases (mem_alInsert m.keys k m.max_index p).mp hp with rfl | ⟨hm2, -⟩
          · exact Nat.lt_succ_self _
          · exact Nat.lt_succ_of_lt (hbk p hm2)
        · intro q hq
          rcases (mem_alInsert _ m.max_index (1, v) q).mp hq with rfl | ⟨hq2, -⟩
          · exact Nat.lt_succ_self _
          · rcases (mem_alInsert m.data idx (c - 1, w) q).mp hq2
              with rfl | ⟨hm2, -⟩
            · exact Nat.lt_succ_of_lt hidx
            · exact Nat.lt_succ_of_lt (hbd q hm2)
        · intro q hq
          rcases (mem_alInsert _ m.max_index (1, v) q).mp hq with rfl | ⟨hq2, -⟩
          · exact Or.inr (Nat.le_refl _)
          · rcases (mem_alInsert m.data idx (c - 1, w) q).mp hq2
              with rfl | ⟨hm2, -⟩
            · exact Or.inl (by rw [show ((idx, (c - 1, w)) : Nat × Nat × V).1
                = idx from rfl, hd]; rfl)
            · exact Or.inl (alGet_isSome_of_mem m.data q hm2)

/-- A successful `alias` allocates nothing and keeps indices bounded. -/
theorem alias_fresh_step (m : MultiKeyMap K V) (hb : IdxBound m) (k a : K)
    (m' : MultiKeyMap K V) (r : Except K V)
    (h : alias' m k a = some (m', r)) : FreshStep m m' := by
  obtain ⟨hbk, hbd⟩ := hb
  cases hk : alGet m.keys k with
  | none =>
    simp only [alias', hk, Option.some.injEq, Prod.mk.injEq] at h
    obtain ⟨hm, -⟩ := h
    subst hm
    exact ⟨Nat.le_refl _, ⟨hbk, hbd⟩,
      fun q hq => Or.inl (alGet_isSome_of_mem m.data q hq)⟩
  | some idx =>
    cases hd : alGet m.data idx with
    | none => simp [alias', hk, hd] at h
    | some p =>
      obtain ⟨c, v⟩ := p
      have hidx : idx < m.max_index := hbd _ (alGet_mem m.data idx (c, v) hd)
      simp only [alias', hk, hd, Option.some.injEq, Prod.mk.injEq] at h
      obtain ⟨hm, -⟩ := h
      subst hm
      refine ⟨Nat.le_refl _, ⟨?_, ?_⟩, ?_⟩
      · intro p hp
        rcases (mem_alInsert m.keys a idx p).mp hp with rfl | ⟨hm2, -⟩
        · exact hidx
        · exact hbk p hm2
      · intro q hq
        rcases (mem_alInsert m.data idx (c + 1, v) q).mp hq with rfl | ⟨hm2, -⟩
        · exact hidx
        · exact hbd q hm2
      · intro q hq
        rcases (mem_alInsert m.data idx (c + 1, v) q).mp hq with rfl | ⟨hm2, -⟩
        · exact Or.inl (by rw [show ((idx, (c + 1, v)) : Nat × Nat × V).1 = idx
            from rfl, hd]; rfl)
        · exact Or.inl (alGet_isSome_of_mem m.data q hm2)

/-- A successful `alias_many` allocates nothing and keeps indices bounded. -/
theorem alias_many_fresh_step (m : MultiKeyMap K V) (hb : IdxBound m) (k : K)
    (as : List K) (m' : MultiKeyMap K V) (r : Except (List K) V)
    (h : alias_many m k as = some (m', r)) : FreshStep m m' := by
  obtain ⟨hbk, hbd⟩ := hb
  cases hk : alGet m.keys k with
  | none =>
    simp only [alias_many, hk, Option.some.injEq, Prod.mk.injEq] at h
    obtain ⟨hm, -⟩ := h
    subst hm
    exact ⟨Nat.le_refl _, ⟨hbk, hbd⟩,
      fun q hq => Or.inl (alGet_isSome_of_mem m.data q hq)⟩
  | some idx =>
    cases hd : alGet m.data idx with
    | none => simp [alias_many, hk, hd] at h
    | some p =>
      obtain ⟨c, v⟩ := p
      have hidx : idx < m.max_index := hbd _ (alGet_mem m.data idx (c, v) hd)
      simp only [alias_many, hk, hd, Option.some.injEq, Prod.mk.injEq] at h
      obtain ⟨hm, -⟩ := h
      subst hm
      refine ⟨Nat.le_refl _, ⟨?_, ?_⟩, ?_⟩
      · intro p hp
        rcases foldl_alInsert_mem as idx m.keys p hp with hm2 | ht
        · exact hbk p hm2
        · rw [ht]
          exact hidx
      · intro q hq
        rcases (mem_alInsert m.data idx (c + as.length, v) q).mp hq
          with rfl | ⟨hm2, -⟩
        · exact hidx
        · exact hbd q hm2
      · intro q hq
        rcases (mem_alInsert m.data idx (c + as.length, v) q).mp hq
          with rfl | ⟨hm2, -⟩
        · exact Or.inl (by rw [show ((idx, (c + as.length, v)) :
            Nat × Nat × V).1 = idx from rfl, hd]; rfl)
        · exact Or.inl (alGet_isSome_of_mem m.data q hm2)

/-- A successful `remove` allocates nothing and keeps indices bounded. -/
theorem remove_fresh_step (m : MultiKeyMap K V) (hb : IdxBound m) (k : K)
    (m' : MultiKeyMap K V) (r : Option V)
    (h : remove m k = some (m', r)) : FreshStep m m' := by
  obtain ⟨hbk, hbd⟩ := hb
  cases hk : alGet m.keys k with
  | none =>
    simp only [remove, hk, Option.some.injEq, Prod.mk.injEq] at h
    obtain ⟨hm, -⟩ := h
    subst hm
    exact ⟨Nat.le_refl _, ⟨hbk, hbd⟩,
      fun q hq => Or.inl (alGet_isSome_of_mem m.data q hq)⟩
  | some idx =>
    cases hd : alGet m.data idx with
    | none => simp [remove, hk, hd] at h
    | some p =>
      obtain ⟨c, w⟩ := p
      have hidx : idx < m.max_index := hbd _ (alGet_mem m.data idx (c, w) hd)
      by_cases hc : c = 1
      · simp only [remove, hk, hd, if_pos hc, Option.some.injEq,
          Prod.mk.injEq] at h
        obtain ⟨hm, -⟩ := h
        subst hm
        refine ⟨Nat.le_refl _, ⟨?_, ?_⟩, ?_⟩
        · intro p hp
          exact hbk p ((mem_alErase m.keys k p).mp hp).1
        · intro q hq
          exact hbd q ((mem_alErase m.data idx q).mp hq).1
        · intro q hq
          exact Or.inl (alGet_isSome_of_mem m.data q
            ((mem_alErase m.data idx q).mp hq).1)
      · simp only [remove, hk, hd, if_neg hc, Option.some.injEq,
          Prod.mk.injEq] at h
        obtain ⟨hm, -⟩ := h
        subst hm
        refine ⟨Nat.le_refl _, ⟨?_, ?_⟩, ?_⟩
        · intro p hp
          exact hbk p ((mem_alErase m.keys k p).mp hp).1
        · intro q hq
          rcases (mem_alInsert m.data idx (c - 1, w) q).mp hq with rfl | ⟨hm2, -⟩
          · exact hidx
          · exact hbd q hm2
        · intro q hq
          rcases (mem_alInsert m.data idx (c - 1, w) q).mp hq with rfl | ⟨hm2, -⟩
          · exact Or.inl (by rw [show ((idx, (c - 1, w)) : Nat × Nat × V).1
              = idx from rfl, hd]; rfl)
          · exact Or.inl (alGet_isSome_of_mem m.data q hm2)

/-- A successful `remove_many` allocates nothing and keeps indices
bounded. -/
theorem remove_many_fresh_step (ks : List K) :
    ∀ (m m' : MultiKeyMap K V) (b : List V), IdxBound m →
      remove_many m ks = some (m', b) → FreshStep m m' := by
  induction ks with
  | nil =>
    intro m m' b hb h
    simp only [remove_many, Option.some.injEq, Prod.mk.injEq] at h
    obtain ⟨hm, -⟩ := h
    subst hm
    exact ⟨Nat.le_refl _, hb,
      fun q hq => Or.inl (alGet_isSome_of_mem m.data q hq)⟩
  | cons k ks ih =>
    intro m m' b hb h
    cases h1 : remove m k with
    | none => simp [remove_many, h1] at h
    | some p =>
      obtain ⟨m1, r⟩ := p
      have hstep := remove_fresh_step m hb k m1 r h1
      simp only [remove_many, h1] at h
      cases h2 : remove_many m1 ks with
      | none => simp [h2] at h
      | some p2 =>
        obtain ⟨m2, vs⟩ := p2
        simp only [h2, Option.some.injEq, Prod.mk.injEq] at h
        obtain ⟨hm, -⟩ := h
        subst hm
        exact freshStep_trans m m1 m2 hstep (ih m1 m2 vs hstep.2.1 h2)

/-- `VacantEntry::insert` allocates exactly the fresh slot. -/
theorem vacant_insert_fresh_step (m : MultiKeyMap K V) (hb : IdxBound m)
    (k : K) (v : V) : FreshStep m (vacant_insert m k v) := by
  obtain ⟨hbk, hbd⟩ := hb
  refine ⟨Nat.le_succ _, ⟨?_, ?_⟩, ?_⟩
  · intro p hp
    rcases (mem_alInsert m.keys k m.max_index p).mp hp with rfl | ⟨hm2, -⟩
    · exact Nat.lt_succ_self _
    · exact Nat.lt_succ_of_lt (hbk p hm2)
  · intro q hq
    rcases (mem_alInsert m.data m.max_index (1, v) q).mp hq with rfl | ⟨hm2, -⟩
    · exact Nat.lt_succ_self _
    · exact Nat.lt_succ_of_lt (hbd q hm2)
  · intro q hq
    rcases (mem_alInsert m.data m.max_index (1, v) q).mp hq with rfl | ⟨hm2, -⟩
    · exact Or.inr (Nat.le_refl _)
    · exact Or.inl (alGet_isSome_of_mem m.data q hm2)

/-- A successful `remove_entry` allocates nothing and keeps indices
bounded. -/
theorem remove_entry_fresh_step (m : MultiKeyMap K V) (hb : IdxBound m)
    (k : K) (idx : Nat) (p : K × Option V) (m' : MultiKeyMap K V)
    (h : remove_entry m k idx = some (p, m')) : FreshStep m m' := by
  obtain ⟨hbk, hbd⟩ := hb
  cases hk : alGet m.keys k with
  | none => simp [remove_entry, hk] at h
  | some i =>
    simp only [remove_entry, hk, Option.some.injEq, Prod.mk.injEq] at h
    obtain ⟨-, hm⟩ := h
    subst hm
    refine ⟨Nat.le_refl _, ⟨?_, ?_⟩, ?_⟩
    · intro p2 hp2
      exact hbk p2 ((mem_alErase m.keys k p2).mp hp2).1
    · intro q hq
      exact hbd q ((mem_alErase m.data idx q).mp hq).1
    · intro q hq
      exact Or.inl (alGet_isSome_of_mem m.data q
        ((mem_alErase m.data idx q).mp hq).1)

/-- The `insert_many` loop never changes the counter, only ever shrinks or
updates existing group slots, and only ever points keys at old targets or at
the fresh slot. -/
theorem insert_many_go_fresh (new_idx : Nat) (ks : List K) :
    ∀ (m : MultiKeyMap K V) (bumped : List V) (n : Nat)
      (m1 : MultiKeyMap K V) (b1 : List V) (n1 : Nat),
      insert_many_go new_idx ks m bumped n = some (m1, b1, n1) →
      m1.max_index = m.max_index ∧
      (∀ j, (alGet m1.data j).isSome = true → (alGet m.data j).isSome = true) ∧
      (∀ p ∈ m1.keys, p ∈ m.keys ∨ p.2 = new_idx) := by
  induction ks with
  | nil =>
    intro m bumped n m1 b1 n1 h
    simp only [insert_many_go, Option.some.injEq, Prod.mk.injEq] at h
    obtain ⟨hm, -⟩ := h
    subst hm
    exact ⟨rfl, fun j hj => hj, fun p hp => Or.inl hp⟩
  | cons k ks ih =>
    intro m bumped n m1 b1 n1 h
    cases hk : alGet m.keys k with
    | some idx =>
      cases hd : alGet m.data idx with
      | none => simp [insert_many_go, hk, hd] at h
      | some p =>
        obtain ⟨c, w⟩ := p
        by_cases hc : c ≤ 1
        · simp only [insert_many_go, hk, hd, if_pos hc] at h
          obtain ⟨hmax, hget, hkeys⟩ := ih _ _ _ _ _ _ h
          refine ⟨hmax, ?_, hkeys⟩
          intro j hj
          have h2 := hget j hj
          by_cases hji : j = idx
          · subst hji
            rw [alGet_alErase_self] at h2
            simp at h2
          · rw [alGet_alErase_ne m.data idx j (fun hc2 => hji hc2.symm)] at h2
            exact h2
        · simp only [insert_many_go, hk, hd, if_neg hc] at h
          obtain ⟨hmax, hget, hkeys⟩ := ih _ _ _ _ _ _ h
          refine ⟨hmax, ?_, ?_⟩
          · intro j hj
            have h2 := hget j hj
            by_cases hji : j = idx
            · subst hji
              rw [hd]
              rfl
            · rw [alGet_alInsert_ne m.data idx (c - 1, w) j
                (fun hc2 => hji hc2.symm)] at h2
              exact h2
          · intro p hp
            rcases hkeys p hp with hm2 | ht
            · rcases (mem_alInsert m.keys k new_idx p).mp hm2 with rfl | ⟨hm3, -⟩
              · exact Or.inr rfl
              · exact Or.inl hm3
            · exact Or.inr ht
    | none =>
      simp only [insert_many_go, hk] at h
      obtain ⟨hmax, hget, hkeys⟩ := ih _ _ _ _ _ _ h
      refine ⟨hmax, hget, ?_⟩
      intro p hp
      rcases hkeys p hp with hm2 | ht
      · rcases (mem_alInsert m.keys k new_idx p).mp hm2 with rfl | ⟨hm3, -⟩
        · exact Or.inr rfl
        · exact Or.inl hm3
      · exact Or.inr ht

/-- A successful `insert_many` allocates exactly one fresh slot (the old
counter value) and keeps all indices bounded by the bumped counter. -/
theorem insert_many_fresh_step (m : MultiKeyMap K V) (hb : IdxBound m)
    (ks : List K) (v : V) (m' : MultiKeyMap K V) (b : List V)
    (h : insert_many m ks v = some (m', b)) : FreshStep m m' := by
  obtain ⟨hbk, hbd⟩ := hb
  cases hgo : insert_many_go m.max_index ks
      { m with max_index := m.max_index + 1 } [] 0 with
  | none => simp [insert_many, hgo] at h
  | some p =>
    obtain ⟨m1, b1, n1⟩ := p
    simp only [insert_many, hgo, Option.some.injEq, Prod.mk.injEq] at h
    obtain ⟨hm, -⟩ := h
    subst hm
    obtain ⟨hmax, hget, hkeys⟩ :=
      insert_many_go_fresh m.max_index ks _ _ _ _ _ _ hgo
    have hmax2 : m1.max_index = m.max_index + 1 := hmax
    have hget2 : ∀ j, (alGet m1.data j).isSome = true →
        (alGet m.data j).isSome = true := hget
    have hkeys2 : ∀ p ∈ m1.keys, p ∈ m.keys ∨ p.2 = m.max_index := hkeys
    have hsome_lt : ∀ j, (alGet m.data j).isSome = true → j < m.max_index := by
      intro j hj
      cases h2 : alGet m.data j with
      | none => rw [h2] at hj; simp at hj
      | some w2 => exact hbd _ (alGet_mem m.data j w2 h2)
    refine ⟨?_, ⟨?_, ?_⟩, ?_⟩
    · show m.max_index ≤ m1.max_index
      omega
    · intro p hp
      show p.2 < m1.max_index
      rcases hkeys2 p hp with hm2 | ht
      · have := hbk p hm2
        omega
      · omega
    · intro q hq
      show q.1 < m1.max_index
      rcases (mem_alInsert m1.data m.max_index (n1, v) q).mp hq
        with rfl | ⟨hm2, -⟩
      · show m.max_index < m1.max_index
        omega
      · have := hsome_lt q.1 (hget2 q.1 (alGet_isSome_of_mem m1.data q hm2))
        omega
    · intro q hq
      rcases (mem_alInsert m1.data m.max_index (n1, v) q).mp hq
        with rfl | ⟨hm2, -⟩
      · exact Or.inr (Nat.le_refl _)
      · exact Or.inl (hget2 q.1 (alGet_isSome_of_mem m1.data q hm2))

/-- C8: `next_index` returns the current counter and bumps it; from any
state whose stored indices are below the counter, every mutating operation
keeps indices below the counter, never lowers the counter, and any new slot
has an identifier at least the old counter value — identifiers strictly
increase across allocations and are never recycled, even after removal. -/
theorem index_fresh (m : MultiKeyMap K V) (hb : IdxBound m) :
    ((next_index m).1 = m.max_index ∧
      (next_index m).2.max_index = m.max_index + 1) ∧
    (∀ k v m' r, insert m k v = some (m', r) → FreshStep m m') ∧
    (∀ k a m' r, alias' m k a = some (m', r) → FreshStep m m') ∧
    (∀ k as m' r, alias_many m k as = some (m', r) → FreshStep m m') ∧
    (∀ ks v m' b, insert_many m ks v = some (m', b) → FreshStep m m') ∧
    (∀ k m' r, remove m k = some (m', r) → FreshStep m m') ∧
    (∀ ks m' b, remove_many m ks = some (m', b) → FreshStep m m') ∧
    (∀ k v, FreshStep m (vacant_insert m k v)) ∧
    (∀ k idx p m', remove_entry m k idx = some (p, m') → FreshStep m m') :=
  ⟨⟨rfl, rfl⟩,
    fun k v m' r h => insert_fresh_step m hb k v m' r h,
    fun k a m' r h => alias_fresh_step m hb k a m' r h,
    fun k as m' r h => alias_many_fresh_step m hb k as m' r h,
    fun ks v m' b h => insert_many_fresh_step m hb ks v m' b h,
    fun k m' r h => remove_fresh_step m hb k m' r h,
    fun ks m' b h => remove_many_fresh_step ks m m' b hb h,
    fun k v => vacant_insert_fresh_step m hb k v,
    fun k idx p m' h => remove_entry_fresh_step m hb k idx p m' h⟩

/-- Witness for C8 at a concrete input: allocating from the empty map
returns counter 0 and bumps it, and inserting key 0 is a fresh step. -/
theorem index_fresh_witness :
    ((next_index (⟨[], [], 0⟩ : MultiKeyMap Nat Nat)).1 = 0 ∧
      (next_index (⟨[], [], 0⟩ : MultiKeyMap Nat Nat)).2.max_index = 0 + 1) ∧
    FreshStep (⟨[], [], 0⟩ : MultiKeyMap Nat Nat)
      ⟨[(0, 0)], [(0, (1, 5))], 1⟩ :=
  ⟨(index_fresh (⟨[], [], 0⟩ : MultiKeyMap Nat Nat) (by decide)).1,
    (index_fresh (⟨[], [], 0⟩ : MultiKeyMap Nat Nat) (by decide)).2.1
      0 5 ⟨[(0, 0)], [(0, (1, 5))], 1⟩ none (by decide)⟩

/-- Through the `insert_many` loop, `new_count` stays equal to the number of
aliases targeting the fresh slot, and the fresh slot stays absent from the
group table. -/
theorem insert_many_go_count (new_idx : Nat) (ks : List K) :
    ∀ (m : MultiKeyMap K V) (bumped : List V) (n : Nat)
      (m1 : MultiKeyMap K V) (b1 : List V) (n1 : Nat),
      NodupFst m.keys →
      alGet m.data new_idx = none →
      countAliases m.keys new_idx = n →
      insert_many_go new_idx ks m bumped n = some (m1, b1, n1) →
      alGet m1.data new_idx = none ∧ countAliases m1.keys new_idx = n1 := by
  induction ks with
  | nil =>
    intro m bumped n m1 b1 n1 hnd hfresh hcnt h
    simp only [insert_many_go, Option.some.injEq, Prod.mk.injEq] at h
    obtain ⟨hm, -, hn⟩ := h
    subst hm
    subst hn
    exact ⟨hfresh, hcnt⟩
  | cons k ks ih =>
    intro m bumped n m1 b1 n1 hnd hfresh hcnt h
    cases hk : alGet m.keys k with
    | some idx =>
      cases hd : alGet m.data idx with
      | none => simp [insert_many_go, hk, hd] at h
      | some p =>
        obtain ⟨c, w⟩ := p
        have hne : idx ≠ new_idx := by
          intro hc2
          rw [hc2, hfresh] at hd
          exact Option.noConfusion hd
        by_cases hc : c ≤ 1
        · simp only [insert_many_go, hk, hd, if_pos hc] at h
          refine ih ⟨m.keys, alErase m.data idx, m.max_index⟩ _ _ _ _ _
            hnd ?_ hcnt h
          show alGet (alErase m.data idx) new_idx = none
          rw [alGet_alErase_ne m.data idx new_idx hne]
          exact hfresh
        · simp only [insert_many_go, hk, hd, if_neg hc] at h
          refine ih ⟨alInsert m.keys k new_idx, alInsert m.data idx (c - 1, w),
              m.max_index⟩ _ _ _ _ _
            (nodupFst_alInsert _ _ _ hnd) ?_ ?_ h
          · show alGet (alInsert m.data idx (c - 1, w)) new_idx = none
            rw [alGet_alInsert_ne m.data idx (c - 1, w) new_idx hne]
            exact hfresh
          · show countAliases (alInsert m.keys k new_idx) new_idx = n + 1
            rw [countAliases_alInsert m.keys k new_idx new_idx, if_pos rfl]
            have := countAliases_alErase m.keys k idx new_idx hnd hk
            rw [if_neg hne] at this
            omega
    | none =>
      simp only [insert_many_go, hk] at h
      refine ih ⟨alInsert m.keys k new_idx, m.data, m.max_index⟩ _ _ _ _ _
        (nodupFst_alInsert _ _ _ hnd) hfresh ?_ h
      show countAliases (alInsert m.keys k new_idx) new_idx = n + 1
      rw [countAliases_alInsert_absent m.keys k new_idx new_idx hk, if_pos rfl]
      omega

/-- C10: a successful `insert_many` unconditionally creates a fresh group
entry holding `v` whose reference count equals the number of aliases now
targeting the fresh slot (the keys redirected or newly added); `v` is
produced by `values` and `into_values`, and when that count is 0 no key
resolves to the fresh slot. -/
theorem insert_many_fresh_group (m : MultiKeyMap K V) (ks : List K) (v : V)
    (m' : MultiKeyMap K V) (b : List V) (hw : Wf m)
    (h : insert_many m ks v = some (m', b)) :
    alGet m'.data m.max_index
        = some (countAliases m'.keys m.max_index, v) ∧
    v ∈ values m' ∧ v ∈ into_values m' ∧
    (countAliases m'.keys m.max_index = 0 →
      ∀ k, alGet m'.keys k ≠ some m.max_index) := by
  obtain ⟨hndk, hndd, hbk, hbd⟩ := hw
  cases hgo : insert_many_go m.max_index ks
      { m with max_index := m.max_index + 1 } [] 0 with
  | none => simp [insert_many, hgo] at h
  | some p =>
    obtain ⟨m1, b1, n1⟩ := p
    simp only [insert_many, hgo, Option.some.injEq, Prod.mk.injEq] at h
    obtain ⟨hm, -⟩ := h
    subst hm
    have hfresh0 : alGet m.data m.max_index = none := by
      rw [alGet_eq_none]
      intro q hq
      exact Nat.ne_of_lt (hbd q hq)
    have hcnt0 : countAliases m.keys m.max_index = 0 :=
      (countAliases_eq_zero m.keys m.max_index).mpr
        (fun q hq => Nat.ne_of_lt (hbk q hq))
    obtain ⟨hfresh1, hcnt1⟩ := insert_many_go_count m.max_index ks
      ⟨m.keys, m.data, m.max_index + 1⟩ [] 0
      m1 b1 n1 hndk hfresh0 hcnt0 hgo
    refine ⟨?_, ?_, ?_, ?_⟩
    · show alGet (alInsert m1.data m.max_index (n1, v)) m.max_index
        = some (countAliases m1.keys m.max_index, v)
      rw [alGet_alInsert_self, hcnt1]
    · exact List.mem_map.mpr
        ⟨(m.max_index, (n1, v)), List.mem_cons_self _ _, rfl⟩
    · exact List.mem_map.mpr
        ⟨(m.max_index, (n1, v)), List.mem_cons_self _ _, rfl⟩
    · intro hz k hk2
      have hall := (countAliases_eq_zero m1.keys m.max_index).mp hz
      exact hall (k, m.max_index) (alGet_mem m1.keys k m.max_index hk2) rfl

/-- Witness for C10 at a concrete input: `insert_many` with an empty key
list creates a fresh group of count 0 whose value appears in `values` while
no key resolves to it. -/
theorem insert_many_fresh_group_witness :
    alGet (⟨[], [(0, (0, 5))], 1⟩ : MultiKeyMap Nat Nat).data 0
        = some (countAliases
            (⟨[], [(0, (0, 5))], 1⟩ : MultiKeyMap Nat Nat).keys 0, 5) ∧
    5 ∈ values (⟨[], [(0, (0, 5))], 1⟩ : MultiKeyMap Nat Nat) ∧
    5 ∈ into_values (⟨[], [(0, (0, 5))], 1⟩ : MultiKeyMap Nat Nat) ∧
    (countAliases (⟨[], [(0, (0, 5))], 1⟩ : MultiKeyMap Nat Nat).keys 0 = 0 →
      ∀ k, alGet (⟨[], [(0, (0, 5))], 1⟩ : MultiKeyMap Nat Nat).keys k
        ≠ some 0) :=
  insert_many_fresh_group ⟨[], [], 0⟩ [] 5 ⟨[], [(0, (0, 5))], 1⟩ []
    (by decide) (by decide)

/-- When every key in the list is a sole owner (and the keys are distinct,
under the counting invariant), the `insert_many` loop deletes each key's
group, appends the displaced values in input order, and never touches the
alias table or the counter. -/
theorem insert_many_go_sole (new_idx : Nat) (ks : List K) :
    ∀ (m : MultiKeyMap K V) (bumped : List V) (n : Nat),
      NodupFst m.keys → Inv m → ks.Nodup →
      (∀ k ∈ ks, sole_owner m k) →
      ∃ m1, insert_many_go new_idx ks m bumped n
          = some (m1, bumped ++ ks.filterMap (get m), n) ∧
        m1.keys = m.keys ∧ m1.max_index = m.max_index ∧
        (∀ k ∈ ks, ∀ idx, alGet m.keys k = some idx →
          alGet m1.data idx = none) ∧
        (∀ j, alGet m1.data j = alGet m.data j ∨ alGet m1.data j = none) := by
  induction ks with
  | nil =>
    intro m bumped n hnd hI hnd2 hall
    exact ⟨m, by simp [insert_many_go], rfl, rfl, by simp, fun j => Or.inl rfl⟩
  | cons k ks ih =>
    intro m bumped n hnd hI hnd2 hall
    obtain ⟨idx, c, w, hk, hd, hc⟩ := hall k (List.mem_cons_self k ks)
    have hnodup2 := List.nodup_cons.mp hnd2
    have htanne : ∀ k2 ∈ ks, ∀ idx2 c2 w2, alGet m.keys k2 = some idx2 →
        alGet m.data idx2 = some (c2, w2) → idx2 ≠ idx := by
      intro k2 hk2 idx2 c2 w2 hk2' hd2' hc3
      rw [hc3] at hk2'
      have hne : k ≠ k2 := fun hc4 => hnodup2.1 (hc4 ▸ hk2)
      have h2 : 2 ≤ countAliases m.keys idx :=
        countAliases_two m.keys (k, idx) (k2, idx) idx
          (alGet_mem m.keys k idx hk) (alGet_mem m.keys k2 idx hk2')
          (fun hc4 => hne (congrArg Prod.fst hc4)) rfl rfl
      have h3 : c = countAliases m.keys idx ∧ 1 ≤ countAliases m.keys idx :=
        hI (idx, (c, w)) (alGet_mem m.data idx (c, w) hd)
      omega
    have hI2 : Inv (⟨m.keys, alErase m.data idx, m.max_index⟩ :
        MultiKeyMap K V) := by
      intro q hq
      exact hI q ((mem_alErase m.data idx q).mp hq).1
    have hsole2 : ∀ k2 ∈ ks, sole_owner
        (⟨m.keys, alErase m.data idx, m.max_index⟩ : MultiKeyMap K V) k2 := by
      intro k2 hk2
      obtain ⟨idx2, c2, w2, hk2', hd2', hc2⟩ :=
        hall k2 (List.mem_cons_of_mem k hk2)
      have hne := htanne k2 hk2 idx2 c2 w2 hk2' hd2'
      refine ⟨idx2, c2, w2, hk2', ?_, hc2⟩
      show alGet (alErase m.data idx) idx2 = some (c2, w2)
      rw [alGet_alErase_ne m.data idx idx2 (Ne.symm hne)]
      exact hd2'
    have hget2 : ∀ k2 ∈ ks,
        get (⟨m.keys, alErase m.data idx, m.max_index⟩ : MultiKeyMap K V) k2
          = get m k2 := by
      intro k2 hk2
      obtain ⟨idx2, c2, w2, hk2', hd2', hc2⟩ :=
        hall k2 (List.mem_cons_of_mem k hk2)
      have hne := htanne k2 hk2 idx2 c2 w2 hk2' hd2'
      simp only [get, hk2']
      simp [alGet_alErase_ne m.data idx idx2 (Ne.symm hne)]
    obtain ⟨m1, ihgo, ihkeys, ihmax, ihnone, ihpres⟩ :=
      ih ⟨m.keys, alErase m.data idx, m.max_index⟩ (bumped ++ [w]) n
        hnd hI2 hnodup2.2 hsole2
    have hgk : get m k = some w := by simp [get, hk, hd]
    have hcong : ks.filterMap
        (get (⟨m.keys, alErase m.data idx, m.max_index⟩ : MultiKeyMap K V))
          = ks.filterMap (get m) :=
      List.filterMap_congr hget2
    refine ⟨m1, ?_, ihkeys, ihmax, ?_, ?_⟩
    · simp only [insert_many_go, hk, hd, if_pos hc]
      rw [ihgo, hcong]
      have : (k :: ks).filterMap (get m) = w :: ks.filterMap (get m) := by
        simp [List.filterMap_cons, hgk]
      rw [this]
      simp
    · intro k2 hk2 idx2 hk2'
      rcases List.mem_cons.mp hk2 with rfl | hk2t
      · have hidx2 : idx2 = idx := by
          rw [hk] at hk2'
          exact (Option.some.inj hk2').symm
        subst hidx2
        rcases ihpres idx2 with hsame | hnone2
        · rw [hsame]
          exact alGet_alErase_self m.data idx2
        · exact hnone2
      · exact ihnone k2 hk2t idx2 hk2'
    · intro j
      rcases ihpres j with hsame | hnone2
      · by_cases hji : j = idx
        · subst hji
          rw [hsame]
          exact Or.inr (alGet_alErase_self m.data j)
        · rw [hsame]
          exact Or.inl (alGet_alErase_ne m.data idx j
            (fun hc2 => hji hc2.symm))
      · exact Or.inr hnone2

/-- C3: when each key in the list is present and sole owner of its prior
group, `insert_many` deletes those groups outright, returns the displaced
values in input order, and does not redirect the keys to the fresh slot —
afterwards each such key is still present (`contains_key` true) while `get`
is empty. -/
theorem insert_many_sole_owner (m : MultiKeyMap K V) (ks : List K) (v : V)
    (hw : Wf m) (hI : Inv m) (hnd2 : ks.Nodup)
    (hall : ∀ k ∈ ks, sole_owner m k) :
    ∃ m', insert_many m ks v = some (m', ks.filterMap (get m)) ∧
      ∀ k ∈ ks, alGet m'.keys k = alGet m.keys k ∧
        contains_key m' k = true ∧ get m' k = none := by
  obtain ⟨hndk, hndd, hbk, hbd⟩ := hw
  obtain ⟨m1, hgo, hkeys1, hmax1, hnone1, hpres1⟩ :=
    insert_many_go_sole m.max_index ks
      ⟨m.keys, m.data, m.max_index + 1⟩ [] 0 hndk hI hnd2 hall
  refine ⟨⟨m1.keys, alInsert m1.data m.max_index (0, v), m1.max_index⟩,
    ?_, ?_⟩
  · simp only [insert_many, hgo, List.nil_append]
    rfl
  · intro k hk
    obtain ⟨idx, c, w, hk', hd', hc'⟩ := hall k hk
    have hkk : alGet m1.keys k = alGet m.keys k := by
      rw [hkeys1]
    have hidxlt : idx < m.max_index := hbd _ (alGet_mem m.data idx (c, w) hd')
    refine ⟨hkk, ?_, ?_⟩
    · show (alGet m1.keys k).isSome = true
      rw [hkk, hk']
      rfl
    · show ((alGet m1.keys k).bind
        (alGet (alInsert m1.data m.max_index (0, v)))).map (fun q => q.2)
          = none
      rw [hkk, hk']
      have h1 : alGet (alInsert m1.data m.max_index (0, v)) idx = none := by
        rw [alGet_alInsert_ne m1.data m.max_index (0, v) idx
          (fun hc2 => (Nat.ne_of_lt hidxlt) hc2.symm)]
        exact hnone1 k hk idx hk'
      simp [h1]

/-- Witness for C3 at a concrete input: key 0 solely owns value 5;
`insert_many [0] 7` bumps 5 into the returned list, deletes the old group,
and leaves key 0 present but dangling. -/
theorem insert_many_sole_owner_witness :
    ∃ m', insert_many (⟨[(0, 0)], [(0, (1, 5))], 1⟩ : MultiKeyMap Nat Nat)
          [0] 7
        = some (m', [0].filterMap
            (get (⟨[(0, 0)], [(0, (1, 5))], 1⟩ : MultiKeyMap Nat Nat))) ∧
      ∀ k ∈ [0], alGet m'.keys k
          = alGet (⟨[(0, 0)], [(0, (1, 5))], 1⟩ :
            MultiKeyMap Nat Nat).keys k ∧
        contains_key m' k = true ∧ get m' k = none :=
  insert_many_sole_owner ⟨[(0, 0)], [(0, (1, 5))], 1⟩ [0] 7
    (by decide) (by decide) (by decide)
    (fun k hk => by
      have hk0 : k = 0 := by simpa using hk
      subst hk0
      exact ⟨0, 1, 5, by decide, by decide, by decide⟩)

end MultiKeyMap
